import Mathlib

/-!
Shallow embedding of the `crates-io-lsp` language server
(`src/crates-io-lsp/src/main.rs` and `src/crates-io-lsp/src/api.rs`).

Modelling conventions:
* Rust `String` text is modelled as `List Char`; manifest content handled by the
  server is ASCII, so byte offsets coincide with character offsets.
* Fallible code returns `Option`; a Rust panic (`unwrap`, arithmetic underflow,
  `replace_range` out of bounds) is modelled as `none` in the outermost layer.
* `HashMap` is modelled as an association list with `lookup?` and `upsert`.
* The network is modelled as an oracle `fetch : String → Except Unit (List String)`;
  the list of names actually fetched is recorded so that network cost is observable.
* The async `JoinSet` in `CratesIoBackend::get_versions` completes tasks in a
  nondeterministic order; the model uses the deterministic spawn order, which is
  one of its linearizations (none of the verified properties depend on order).
-/

namespace CratesIoLsp

/-- Association-list lookup, modelling `HashMap::get`. -/
def lookup? {α : Type} (k : String) : List (String × α) → Option α
  | [] => none
  | (k', v) :: rest => if k = k' then some v else lookup? k rest

/-- Association-list insert-or-replace, modelling `HashMap::insert`. -/
def upsert {α : Type} (k : String) (v : α) : List (String × α) → List (String × α)
  | [] => [(k, v)]
  | (k', v') :: rest => if k = k' then (k, v) :: rest else (k', v') :: upsert k v rest

/-- An LSP position: zero-based line and character, as in `lsp_types::Position`. -/
structure Position where
  line : Nat
  character : Nat
deriving DecidableEq, Repr

/-- The segments produced by Rust's `str::split_inclusive('\n')`: each segment ends
with a newline character, except possibly the last; the empty string yields no
segments. -/
def splitInclusive : List Char → List (List Char)
  | [] => []
  | c :: rest =>
    match splitInclusive rest with
    | [] => [[c]]
    | seg :: segs => if c = '\n' then [c] :: seg :: segs else (c :: seg) :: segs

/-- The per-line cleanup done by Rust's `str::lines`: strip one trailing newline,
and if one was stripped also strip one trailing carriage return. -/
def lineStrip (l : List Char) : List Char :=
  if l.getLast? = some '\n' then
    if l.dropLast.getLast? = some '\r' then l.dropLast.dropLast else l.dropLast
  else l

/-- Rust's `str::lines`. -/
def lines (s : List Char) : List (List Char) :=
  (splitInclusive s).map lineStrip

/-- Byte offset of the start of line `n` inside `text`; this is what the pointer
arithmetic `line.as_ptr().offset_from(text.as_ptr())` in `pos_to_offset` computes,
since `str::lines` yields subslices whose start pointers are the segment starts. -/
def lineStart (text : List Char) (n : Nat) : Nat :=
  (((splitInclusive text).take n).map List.length).sum

/-- Rust `usize` subtraction: panics (here `none`) on underflow. In release builds
the subtraction in `offset_to_pos` would instead wrap and the subsequent
`.last().unwrap()` would panic; both modes panic on the same inputs. -/
def checkedSub (a b : Nat) : Option Nat :=
  if b ≤ a then some (a - b) else none

/-- Embeds `offset_to_pos` from `main.rs`. The outer `Option` layer models a panic
(`none` = panic); the inner layer is the function's own `Option` result. -/
def offset_to_pos (text : List Char) (offset : Nat) : Option (Option Position) :=
  if offset + 1 > text.length then some none
  else
    let pre := text.take offset
    if pre.getLast? = some '\n' then
      some (some ⟨(lines pre).length, 0⟩)
    else do
      let l ← checkedSub (lines pre).length 1
      let last ← (lines pre).getLast?
      pure (some ⟨l, last.length⟩)

/-- Embeds `pos_to_offset` from `main.rs`: look up the line with `lines().nth`,
take its start offset in `text`, and add the character count unchecked. -/
def pos_to_offset (text : List Char) (pos : Position) : Option Nat :=
  match (lines text).get? pos.line with
  | some _ => some (lineStart text pos.line + pos.character)
  | none => none

/-- LSP diagnostic severities used by the server. -/
inductive Severity where
  | error
  | warning
  | information
  | hint
deriving DecidableEq, Repr

/-- Rust's `Iterator::position`: index of the first element satisfying `p`. -/
def firstIdx (p : String → Bool) : List String → Option Nat
  | [] => none
  | v :: vs => if p v then some 0 else (firstIdx p vs).map (· + 1)

/-- Rust's `str::starts_with` with a string pattern: a prefix test. On the ASCII
content handled here this is a prefix test on the character lists. -/
def starts_with (v pat : String) : Bool :=
  pat.toList.isPrefixOf v.toList

/-- The classification block of `collect_diagnostics` for a non-empty,
already-reversed (newest-first) version list: requirement `"*"` is Information,
otherwise the first version having the requirement as a prefix decides between
Hint (index 0) and Warning (later index), and no match is Error. -/
def classify (req : String) (versions : List String) : String × Severity :=
  if req = "*" then ("Matches any Version", Severity.information)
  else
    match firstIdx (fun v => starts_with v req) versions with
    | some idx =>
      if idx = 0 then ("Latest Version", Severity.hint)
      else ("Outdated Version", Severity.warning)
    | none => ("Unknown Version", Severity.error)

/-- Severity assigned to a dependency with requirement `req` whose fetched version
list (oldest-first, yanked filtered) is `fetched`, exactly as in
`collect_diagnostics`: the list is reversed, an empty list is Error, otherwise
`classify` decides. -/
def classifyDep (req : String) (fetched : List String) : Severity :=
  let versions := fetched.reverse
  if !versions.isEmpty then (classify req versions).2
  else Severity.error

/-- The registry sharding path computed in `api.rs::fetch_versions` from the
dependency name's length. -/
def shardPath (name : List Char) : List Char :=
  if name.length ≤ 2 then (Nat.repr name.length).toList
  else if name.length = 3 then
    (Nat.repr name.length).toList ++ ['/'] ++ name.take 1
  else
    name.take 2 ++ ['/'] ++ ((name.drop 2).take 2)

/-- Result of one `CratesIoBackend::get_versions` call: the `(name, versions)`
pairs returned to the caller, the cache after the call, and the names for which
a network fetch was spawned (observable network cost). -/
structure ResolveOut where
  results : List (String × List String)
  cache : List (String × List String)
  fetched : List String
deriving DecidableEq, Repr

/-- Phase one of `get_versions` (under the read lock): walk the requested names,
collecting cache hits (first component, with their cached version lists) and
cache misses (second component, the names to fetch). -/
def cacheSplit (cache : List (String × List String)) :
    List String → List (String × List String) × List String
  | [] => ([], [])
  | n :: rest =>
    match lookup? n cache with
    | some vs => ((n, vs) :: (cacheSplit cache rest).1, (cacheSplit cache rest).2)
    | none => ((cacheSplit cache rest).1, n :: (cacheSplit cache rest).2)

/-- Phase two of `get_versions` (under the write lock): for each joined fetch,
a success is inserted into the cache (first component) and pushed onto the
results (second component); a failure is only logged (the log sink is not
modelled) — neither cached nor returned. -/
def mergeFetched (cache : List (String × List String)) :
    List (String × Except Unit (List String)) →
      List (String × List String) × List (String × List String)
  | [] => (cache, [])
  | (n, Except.ok vs) :: rest =>
    ((mergeFetched (upsert n vs cache) rest).1,
      (n, vs) :: (mergeFetched (upsert n vs cache) rest).2)
  | (_, Except.error _) :: rest => mergeFetched cache rest

/-- Embeds `CratesIoBackend::get_versions` from `main.rs`, with the network as the
oracle `fetch`: cache hits are answered from the cache, every miss occurrence
spawns a fetch, and successful fetches are merged into the cache and results. -/
def get_versions (cache : List (String × List String))
    (fetch : String → Except Unit (List String)) (names : List String) : ResolveOut :=
  let hits := (cacheSplit cache names).1
  let misses := (cacheSplit cache names).2
  let joined := misses.map (fun n => (n, fetch n))
  ⟨hits ++ (mergeFetched cache joined).2, (mergeFetched cache joined).1, misses⟩

/-- One dependency entry as produced by parsing the manifest with span tracking:
name with its key's byte span, declared requirement string, and whether the
dependency declares a `path` (`Dependency::detail().path.is_some()`). TOML
parsing itself is delegated to an external parser (out of scope per the spec);
the model starts from the parsed entries of the three dependency tables. -/
structure DepEntry where
  name : String
  spanStart : Nat
  spanEnd : Nat
  req : String
  hasPath : Bool
deriving DecidableEq, Repr

/-- A produced LSP diagnostic. -/
structure Diagnostic where
  range : Position × Position
  severity : Severity
  source : String
  message : String
deriving DecidableEq, Repr

/-- The dependency-name list sent to the version resolver in
`collect_diagnostics`: names of all entries that do not declare a `path`. -/
def dep_names (allDeps : List DepEntry) : List String :=
  (allDeps.filter (fun d => !d.hasPath)).map (fun d => d.name)

/-- Builds the diagnostic for one resolved dependency, as in the body of the loop
in `collect_diagnostics`. Outer `Option`: panic; inner `Option`: `none` models the
`continue` taken when a span endpoint maps outside the document. -/
def mkDiag (text : List Char) (d : DepEntry) (fetched : List String) :
    Option (Option Diagnostic) := do
  let versions := fetched.reverse
  let s ← offset_to_pos text d.spanStart
  let e ← offset_to_pos text d.spanEnd
  match s, e with
  | some sp, some ep =>
    let (message, severity) :=
      if !versions.isEmpty then
        let (label, severity) := classify d.req versions
        (label ++ "\n\n" ++ d.name ++ " (" ++ d.req ++ ")\n" ++
          String.intercalate "\n" versions, severity)
      else
        ("Failed to fetch versions for " ++ d.name, Severity.error)
    pure (some ⟨(sp, ep), severity, "crates-io", message⟩)
  | _, _ => pure none

/-- The result loop of `collect_diagnostics`: for each resolved `(name, versions)`
pair, the matching entry is looked up (`unwrap` panics if absent) and its
diagnostic, if any, is appended. -/
def collectLoop (text : List Char) (deps : List DepEntry) :
    List (String × List String) → Option (List Diagnostic)
  | [] => some []
  | (name, versions) :: rest =>
    match deps.find? (fun e => e.name = name) with
    | none => none
    | some d =>
      match mkDiag text d versions with
      | none => none
      | some none => collectLoop text deps rest
      | some (some diag) => (collectLoop text deps rest).map (diag :: ·)

/-- Embeds `CratesIoBackend::collect_diagnostics` from the parsed dependency
entries onward (the concatenation of the `dependencies`, `build-dependencies` and
`dev-dependencies` tables, in that order): filter out path dependencies, resolve
the remaining names, and synthesize one diagnostic per resolved entry. -/
def collect_diagnostics (text : List Char) (allDeps : List DepEntry)
    (cache : List (String × List String))
    (fetch : String → Except Unit (List String)) : Option (List Diagnostic) :=
  let deps := allDeps.filter (fun d => !d.hasPath)
  let dep_versions := (get_versions cache fetch (dep_names allDeps)).results
  collectLoop text deps dep_versions

/-- Splits a character list at every occurrence of `sep`, keeping empty
segments; used to model the URI path `segments()` iterator. -/
def splitOnChar (sep : Char) : List Char → List (List Char)
  | [] => [[]]
  | c :: rest =>
    match splitOnChar sep rest with
    | [] => [[c]]
    | s :: ss => if c = sep then [] :: s :: ss else (c :: s) :: ss

/-- Embeds `is_cargo_toml` from `main.rs`: the last path segment of the URI must
be `Cargo.toml`. The URI is modelled by its path string. -/
def is_cargo_toml (uri : String) : Bool :=
  (splitOnChar '/' uri.toList).getLast?.any (fun n => n == "Cargo.toml".toList)

/-- Embeds `FileInfo` from `main.rs`: the tracked text and version of an open
document. -/
structure FileInfo where
  text : List Char
  version : Int
deriving DecidableEq, Repr

/-- Observable side effect of a notification handler: handing a text to the
diagnostic synthesizer (`CratesIoBackend::update_diagnostics`), which computes
diagnostics from exactly that text and publishes them for the URI. -/
inductive Output where
  | diagPass (uri : String) (version : Option Int) (text : List Char)
deriving DecidableEq, Repr

/-- One element of `DidChangeTextDocumentParams::content_changes`: either a
ranged replacement or a full-text replacement. -/
structure ContentChange where
  range : Option (Position × Position)
  text : List Char
deriving DecidableEq, Repr

/-- Embeds `DidChangeTextDocumentParams` (uri, new version, ordered changes). -/
structure DidChangeParams where
  uri : String
  version : Int
  contentChanges : List ContentChange
deriving DecidableEq, Repr

/-- Applies one content change as in the loop body of `did_change`: ranged
changes convert both endpoints (`unwrap` panics on failure, modelled as `none`)
and `String::replace_range` the byte range (which itself panics when the range
is inverted or out of bounds); a change without a range replaces the text. -/
def applyChange (text : List Char) (c : ContentChange) : Option (List Char) :=
  match c.range with
  | some (s, e) => do
    let start ← pos_to_offset text s
    let stop ← pos_to_offset text e
    if start ≤ stop ∧ stop ≤ text.length then
      pure (text.take start ++ c.text ++ text.drop stop)
    else none
  | none => some c.text

/-- Embeds `CratesIoBackend::did_change` acting on the `open_docs` map: non
manifest URIs are ignored; otherwise the document is looked up (`unwrap` panics
if absent, modelled as `none`), the changes are applied in order, and the stored
text and version are updated. No diagnostics are computed or published. -/
def did_change (docs : List (String × FileInfo)) (p : DidChangeParams) :
    Option (List (String × FileInfo) × List Output) :=
  if !is_cargo_toml p.uri then some (docs, [])
  else do
    let doc ← lookup? p.uri docs
    let newText ← p.contentChanges.foldlM applyChange doc.text
    pure (upsert p.uri ⟨newText, p.version⟩ docs, [])

/-- Embeds `DidSaveTextDocumentParams` (uri and the optional synchronized full
text). -/
structure DidSaveParams where
  uri : String
  text : Option (List Char)
deriving DecidableEq, Repr

/-- Embeds `CratesIoBackend::did_save`: with a tracked document and supplied
text, the stored text is replaced and a diagnostic pass runs on it with the
document's version; with supplied text but no tracked document, a pass runs on
the supplied text with no version; with no supplied text, the handler returns
without any diagnostic pass. -/
def did_save (docs : List (String × FileInfo)) (p : DidSaveParams) :
    List (String × FileInfo) × List Output :=
  if !is_cargo_toml p.uri then (docs, [])
  else
    match lookup? p.uri docs, p.text with
    | some doc, some t =>
      (upsert p.uri ⟨t, doc.version⟩ docs, [Output.diagPass p.uri (some doc.version) t])
    | none, some t => (docs, [Output.diagPass p.uri none t])
    | _, none => (docs, [])

/-! Helper lemmas about `firstIdx` (Rust's `Iterator::position`). -/

lemma firstIdx_of_take_all (p : String → Bool) :
    ∀ (l : List String) (i : Nat) (v : String),
      (l.take i).all (fun w => !p w) = true → l.get? i = some v → p v = true →
      firstIdx p l = some i
  | [], i, v, _, hget, _ => by simp at hget
  | x :: xs, 0, v, _, hget, hp => by
    have hv : x = v := by simpa using hget
    subst hv
    simp [firstIdx, hp]
  | x :: xs, i + 1, v, hall, hget, hp => by
    simp only [List.take_succ_cons, List.all_cons, Bool.and_eq_true,
      Bool.not_eq_true'] at hall
    have hget' : xs.get? i = some v := hget
    have ih := firstIdx_of_take_all p xs i v hall.2 hget' hp
    simp [firstIdx, hall.1, ih]

lemma firstIdx_eq_none (p : String → Bool) :
    ∀ l : List String, l.all (fun w => !p w) = true → firstIdx p l = none
  | [], _ => rfl
  | x :: xs, hall => by
    simp only [List.all_cons, Bool.and_eq_true, Bool.not_eq_true'] at hall
    simp [firstIdx, hall.1, firstIdx_eq_none p xs hall.2]

lemma all_reverse (p : String → Bool) (l : List String) :
    l.reverse.all p = l.all p := by
  induction l with
  | nil => rfl
  | cons x xs ih => simp [List.all_append, ih, Bool.and_comm]

/-- C1: for every dependency, classification against the resolved version list
(reversed to newest-first, yanked already filtered) is: empty list yields
severity Error; requirement exactly `"*"` with a non-empty list yields
Information; otherwise the first newest-first version having the requirement as
a prefix decides (index 0: Hint "latest"; a later index: Warning "outdated"; no
match: Error "unknown version"); concretely on the fetched list
`["1.0.0", "1.1.0", "2.0.0"]`, requirement `"2"` is latest, `"1.1"` outdated,
`"9"` unknown, `"*"` matches any version. -/
theorem C1_dependency_classification :
    (∀ req, classifyDep req [] = Severity.error) ∧
    (∀ fetched : List String, fetched ≠ [] →
      classifyDep "*" fetched = Severity.information) ∧
    (∀ req (fetched : List String) v, req ≠ "*" →
      fetched.reverse.get? 0 = some v → starts_with v req = true →
      classifyDep req fetched = Severity.hint) ∧
    (∀ req (fetched : List String) i v, req ≠ "*" → 0 < i →
      (fetched.reverse.take i).all (fun w => !(starts_with w req)) = true →
      fetched.reverse.get? i = some v → starts_with v req = true →
      classifyDep req fetched = Severity.warning) ∧
    (∀ req (fetched : List String), fetched ≠ [] → req ≠ "*" →
      fetched.all (fun w => !(starts_with w req)) = true →
      classifyDep req fetched = Severity.error) ∧
    classifyDep "2" ["1.0.0", "1.1.0", "2.0.0"] = Severity.hint ∧
    classifyDep "1.1" ["1.0.0", "1.1.0", "2.0.0"] = Severity.warning ∧
    classifyDep "9" ["1.0.0", "1.1.0", "2.0.0"] = Severity.error ∧
    classifyDep "*" ["1.0.0", "1.1.0", "2.0.0"] = Severity.information := by
  refine ⟨fun req => rfl, ?_, ?_, ?_, ?_, by decide, by decide, by decide, by decide⟩
  · intro fetched h
    have : fetched.reverse ≠ [] := by simpa using h
    simp [classifyDep, classify, List.isEmpty_iff, this]
  · intro req fetched v hreq hget hp
    have hidx : firstIdx (fun v => starts_with v req) fetched.reverse = some 0 :=
      firstIdx_of_take_all _ _ 0 v (by simp) hget hp
    have hne : fetched.reverse ≠ [] := by
      intro h; rw [h] at hget; simp at hget
    simp [classifyDep, classify, List.isEmpty_iff, hne, hreq, hidx]
  · intro req fetched i v hreq hi hall hget hp
    have hidx : firstIdx (fun v => starts_with v req) fetched.reverse = some i :=
      firstIdx_of_take_all _ _ i v hall hget hp
    have hne : fetched.reverse ≠ [] := by
      intro h; rw [h] at hget; simp at hget
    simp [classifyDep, classify, List.isEmpty_iff, hne, hreq, hidx, Nat.pos_iff_ne_zero.mp hi]
  · intro req fetched hne hreq hall
    have hidx : firstIdx (fun v => starts_with v req) fetched.reverse = none :=
      firstIdx_eq_none _ _ (by rw [all_reverse]; exact hall)
    have hne' : fetched.reverse ≠ [] := by simpa using hne
    simp [classifyDep, classify, List.isEmpty_iff, hne', hreq, hidx]

/-- Witness for C1: the "outdated" clause applied to the concrete fetched list
`["1.0.0", "1.1.0", "2.0.0"]` and requirement `"1.1"`, matched at newest-first
index 1. -/
theorem C1_dependency_classification_witness :
    classifyDep "1.1" ["1.0.0", "1.1.0", "2.0.0"] = Severity.warning :=
  C1_dependency_classification.2.2.2.1 "1.1" ["1.0.0", "1.1.0", "2.0.0"] 1 "1.1.0"
    (by decide) (by decide) (by decide) (by decide) (by decide)

/-- C8: the registry sharding path is computed from the name's length — length 1
or 2 yields the length itself, length 3 yields `3/` plus the first character,
length 4 or more yields the first two characters, `/`, and the next two; e.g.
`a` yields `1`, `abc` yields `3/a`, `serde` yields `se/rd`. -/
theorem C8_shard_path :
    (∀ name : List Char, name.length = 1 ∨ name.length = 2 →
      shardPath name = (Nat.repr name.length).toList) ∧
    (∀ name : List Char, name.length = 3 →
      shardPath name = (Nat.repr name.length).toList ++ ['/'] ++ name.take 1) ∧
    (∀ name : List Char, 4 ≤ name.length →
      shardPath name = name.take 2 ++ ['/'] ++ (name.drop 2).take 2) ∧
    shardPath "a".toList = "1".toList ∧
    shardPath "abc".toList = "3/a".toList ∧
    shardPath "serde".toList = "se/rd".toList := by
  refine ⟨?_, ?_, ?_, by decide, by decide, by decide⟩
  · intro name h
    have : name.length ≤ 2 := by omega
    simp [shardPath, this]
  · intro name h
    rw [shardPath, if_neg (by omega), if_pos h, h]
  · intro name h
    rw [shardPath, if_neg (by omega), if_neg (by omega)]

/-- Witness for C8: the length ≥ 4 clause applied to the name `tokio`. -/
theorem C8_shard_path_witness :
    shardPath "tokio".toList =
      "tokio".toList.take 2 ++ ['/'] ++ ("tokio".toList.drop 2).take 2 :=
  C8_shard_path.2.2.1 "tokio".toList (by decide)

/-! Helper lemmas about the association-list cache and the two phases of
`get_versions`. -/

lemma lookup?_append_of_none {α : Type} {k : String} {a b : List (String × α)}
    (h : lookup? k a = none) : lookup? k (a ++ b) = lookup? k b := by
  induction a with
  | nil => rfl
  | cons x xs ih =>
    rw [lookup?] at h
    rcases x with ⟨k', v⟩
    by_cases hk : k = k'
    · simp [hk] at h
    · rw [List.cons_append, lookup?, if_neg hk]
      exact ih (by simpa [hk] using h)

lemma lookup?_append_of_some {α : Type} {k : String} {v : α} {a b : List (String × α)}
    (h : lookup? k a = some v) : lookup? k (a ++ b) = some v := by
  induction a with
  | nil => simp [lookup?] at h
  | cons x xs ih =>
    rcases x with ⟨k', w⟩
    by_cases hk : k = k'
    · rw [lookup?, if_pos hk] at h
      rw [List.cons_append, lookup?, if_pos hk]
      exact h
    · rw [lookup?, if_neg hk] at h
      rw [List.cons_append, lookup?, if_neg hk]
      exact ih h

lemma lookup?_upsert_self {α : Type} (k : String) (v : α) (c : List (String × α)) :
    lookup? k (upsert k v c) = some v := by
  induction c with
  | nil => simp [upsert, lookup?]
  | cons x xs ih =>
    rcases x with ⟨k', w⟩
    by_cases hk : k = k'
    · simp [upsert, lookup?, hk]
    · simp only [upsert, if_neg hk, lookup?]
      exact ih

lemma lookup?_upsert_ne {α : Type} {k n : String} (hne : k ≠ n) (v : α)
    (c : List (String × α)) : lookup? k (upsert n v c) = lookup? k c := by
  induction c with
  | nil => simp [upsert, lookup?, hne]
  | cons x xs ih =>
    rcases x with ⟨k', w⟩
    by_cases hk : n = k'
    · subst hk
      simp [upsert, lookup?, hne]
    · simp only [upsert, if_neg hk, lookup?]
      by_cases hkk : k = k'
      · simp [hkk]
      · simp only [if_neg hkk]
        exact ih

lemma cacheSplit_hits_none {cache : List (String × List String)} {k : String}
    (h : lookup? k cache = none) (names : List String) :
    lookup? k (cacheSplit cache names).1 = none := by
  induction names with
  | nil => rfl
  | cons n rest ih =>
    rw [cacheSplit]
    cases hn : lookup? n cache with
    | none => simpa using ih
    | some vs =>
      have hk : k ≠ n := by
        intro he; rw [he, hn] at h; exact Option.noConfusion h
      simpa [lookup?, hk] using ih

lemma cacheSplit_hits_some {cache : List (String × List String)} {k : String}
    {vs : List String} (h : lookup? k cache = some vs) (names : List String)
    (hmem : k ∈ names) : lookup? k (cacheSplit cache names).1 = some vs := by
  induction names with
  | nil => simp at hmem
  | cons n rest ih =>
    rw [cacheSplit]
    by_cases hk : k = n
    · subst hk
      rw [h]
      simp [lookup?]
    · have hmem' : k ∈ rest := by
        rcases List.mem_cons.mp hmem with h' | h'
        · exact absurd h' hk
        · exact h'
      cases hn : lookup? n cache with
      | none => simpa using ih hmem'
      | some ws => simpa [lookup?, hk] using ih hmem'

lemma cacheSplit_misses_none {cache : List (String × List String)} {k : String}
    (names : List String) (hmem : k ∈ (cacheSplit cache names).2) :
    lookup? k cache = none := by
  induction names with
  | nil => simp [cacheSplit] at hmem
  | cons n rest ih =>
    rw [cacheSplit] at hmem
    cases hn : lookup? n cache with
    | none =>
      rw [hn] at hmem
      rcases List.mem_cons.mp hmem with h' | h'
      · rw [h']; exact hn
      · exact ih h'
    | some vs =>
      rw [hn] at hmem
      exact ih hmem

lemma cacheSplit_misses_mem {cache : List (String × List String)} {k : String}
    (h : lookup? k cache = none) (names : List String) (hmem : k ∈ names) :
    k ∈ (cacheSplit cache names).2 := by
  induction names with
  | nil => simp at hmem
  | cons n rest ih =>
    rw [cacheSplit]
    by_cases hk : k = n
    · subst hk
      rw [h]
      simp
    · have hmem' : k ∈ rest := by
        rcases List.mem_cons.mp hmem with h' | h'
        · exact absurd h' hk
        · exact h'
      cases hn : lookup? n cache with
      | none => simpa using Or.inr (ih hmem')
      | some vs => simpa using ih hmem'

lemma mergeFetched_cache_none {k : String}
    (joined : List (String × Except Unit (List String))) :
    ∀ cache : List (String × List String),
      (∀ vs, (k, Except.ok vs) ∉ joined) →
      lookup? k (mergeFetched cache joined).1 = lookup? k cache := by
  induction joined with
  | nil => intro cache _; rfl
  | cons x rest ih =>
    intro cache h
    rcases x with ⟨n, r⟩
    have h' : ∀ ws, (k, Except.ok ws) ∉ rest := fun ws hmem =>
      h ws (List.mem_cons_of_mem _ hmem)
    cases r with
    | ok vs =>
      have hk : k ≠ n := by
        intro he; subst he
        exact h vs (List.mem_cons_self _ _)
      rw [mergeFetched]
      rw [ih (upsert n vs cache) h']
      exact lookup?_upsert_ne hk vs cache
    | error e =>
      rw [mergeFetched]
      exact ih cache h'

lemma mergeFetched_results_none {k : String}
    (joined : List (String × Except Unit (List String))) :
    ∀ cache : List (String × List String),
      (∀ vs, (k, Except.ok vs) ∉ joined) →
      lookup? k (mergeFetched cache joined).2 = none := by
  induction joined with
  | nil => intro cache _; rfl
  | cons x rest ih =>
    intro cache h
    rcases x with ⟨n, r⟩
    have h' : ∀ ws, (k, Except.ok ws) ∉ rest := fun ws hmem =>
      h ws (List.mem_cons_of_mem _ hmem)
    cases r with
    | ok vs =>
      have hk : k ≠ n := by
        intro he; subst he
        exact h vs (List.mem_cons_self _ _)
      rw [mergeFetched]
      simpa [lookup?, hk] using ih (upsert n vs cache) h'
    | error e =>
      rw [mergeFetched]
      exact ih cache h'

lemma mergeFetched_cache_ok {k : String} {vs : List String}
    (joined : List (String × Except Unit (List String))) :
    ∀ cache : List (String × List String),
      (∀ r, (k, r) ∈ joined → r = Except.ok vs) →
      (k, Except.ok vs) ∈ joined →
      lookup? k (mergeFetched cache joined).1 = some vs := by
  induction joined with
  | nil => intro cache _ hmem; simp at hmem
  | cons x rest ih =>
    intro cache hall hmem
    rcases x with ⟨n, r⟩
    have hall' : ∀ r, (k, r) ∈ rest → r = Except.ok vs := fun r hr =>
      hall r (List.mem_cons_of_mem _ hr)
    cases r with
    | ok ws =>
      rw [mergeFetched]
      by_cases hk : k = n
      · subst hk
        have hws : ws = vs := by
          have h0 := hall (Except.ok ws) (List.mem_cons_self _ _)
          injection h0
        subst hws
        by_cases hrest : (k, Except.ok ws) ∈ rest
        · exact ih (upsert k ws cache) hall' hrest
        · have hnone : ∀ us, (k, Except.ok us) ∉ rest := by
            intro us hus
            have h1 := hall' (Except.ok us) hus
            have h2 : us = ws := by injection h1
            exact hrest (h2 ▸ hus)
          rw [mergeFetched_cache_none rest (upsert k ws cache) hnone]
          exact lookup?_upsert_self k ws cache
      · have hmem' : (k, Except.ok vs) ∈ rest := by
          rcases List.mem_cons.mp hmem with h' | h'
          · exact absurd (congrArg Prod.fst h') hk
          · exact h'
        exact ih (upsert n ws cache) hall' hmem'
    | error e =>
      rw [mergeFetched]
      have hmem' : (k, Except.ok vs) ∈ rest := by
        rcases List.mem_cons.mp hmem with h' | h'
        · exact absurd (congrArg Prod.snd h') (by simp)
        · exact h'
      exact ih cache hall' hmem'

lemma mergeFetched_results_ok {k : String} {vs : List String}
    (joined : List (String × Except Unit (List String))) :
    ∀ cache : List (String × List String),
      (∀ r, (k, r) ∈ joined → r = Except.ok vs) →
      (k, Except.ok vs) ∈ joined →
      lookup? k (mergeFetched cache joined).2 = some vs := by
  induction joined with
  | nil => intro cache _ hmem; simp at hmem
  | cons x rest ih =>
    intro cache hall hmem
    rcases x with ⟨n, r⟩
    have hall' : ∀ r, (k, r) ∈ rest → r = Except.ok vs := fun r hr =>
      hall r (List.mem_cons_of_mem _ hr)
    cases r with
    | ok ws =>
      rw [mergeFetched]
      by_cases hk : k = n
      · subst hk
        have hws : ws = vs := by
          have h0 := hall (Except.ok ws) (List.mem_cons_self _ _)
          injection h0
        subst hws
        simp [lookup?]
      · have hmem' : (k, Except.ok vs) ∈ rest := by
          rcases List.mem_cons.mp hmem with h' | h'
          · exact absurd (congrArg Prod.fst h') hk
          · exact h'
        simpa [lookup?, hk] using ih (upsert n ws cache) hall' hmem'
    | error e =>
      rw [mergeFetched]
      have hmem' : (k, Except.ok vs) ∈ rest := by
        rcases List.mem_cons.mp hmem with h' | h'
        · exact absurd (congrArg Prod.snd h') (by simp)
        · exact h'
      exact ih cache hall' hmem'

lemma joined_ok_free {fetch : String → Except Unit (List String)} {k : String}
    (hf : fetch k = Except.error ()) (misses : List String) :
    ∀ vs, (k, Except.ok vs) ∉ misses.map (fun n => (n, fetch n)) := by
  intro vs hmem
  rcases List.mem_map.mp hmem with ⟨n, _, heq⟩
  have hn : n = k := congrArg Prod.fst heq
  have hr : fetch n = Except.ok vs := congrArg Prod.snd heq
  rw [hn, hf] at hr
  exact Except.noConfusion hr

lemma joined_all_ok {fetch : String → Except Unit (List String)} {k : String}
    {vs : List String} (hf : fetch k = Except.ok vs) (misses : List String) :
    ∀ r, (k, r) ∈ misses.map (fun n => (n, fetch n)) → r = Except.ok vs := by
  intro r hmem
  rcases List.mem_map.mp hmem with ⟨n, _, heq⟩
  have hn : n = k := congrArg Prod.fst heq
  have hr : fetch n = r := congrArg Prod.snd heq
  rw [hn, hf] at hr
  exact hr.symm

/-- C4 counterexample: with an empty cache and a failing fetch, resolving
`["serde"]` leaves the cache unpopulated as claimed, but the returned mapping is
empty — it does not contain `serde` bound to an empty version list. -/
theorem C4_counterexample :
    (get_versions [] (fun _ => Except.error ()) ["serde"]).results = [] ∧
    (get_versions [] (fun _ => Except.error ()) ["serde"]).cache = [] ∧
    (get_versions [] (fun _ => Except.error ()) ["serde"]).fetched = ["serde"] :=
  ⟨rfl, rfl, rfl⟩

/-- C4 as amended: when the fetch for an uncached name fails during a resolve
call, the cache is not populated for that name (a later resolve may retry it)
and the name is absent from the mapping returned to the caller — it is not
bound to an empty version list; the failure is surfaced only as a log event. -/
theorem C4_fetch_failure_drops_name (cache : List (String × List String))
    (fetch : String → Except Unit (List String)) (names : List String)
    (name : String) (hc : lookup? name cache = none)
    (hf : fetch name = Except.error ()) :
    lookup? name (get_versions cache fetch names).results = none ∧
    lookup? name (get_versions cache fetch names).cache = none := by
  have hfree := joined_ok_free hf (cacheSplit cache names).2
  constructor
  · show lookup? name ((cacheSplit cache names).1 ++ _) = none
    rw [lookup?_append_of_none (cacheSplit_hits_none hc names)]
    exact mergeFetched_results_none _ cache hfree
  · show lookup? name (mergeFetched cache _).1 = none
    rw [mergeFetched_cache_none _ cache hfree]
    exact hc

/-- Witness for C4's amended theorem at a concrete failing fetch. -/
theorem C4_fetch_failure_drops_name_witness :
    lookup? "serde"
        (get_versions [("libc", ["0.2.0"])] (fun _ => Except.error ())
          ["serde", "libc"]).results = none ∧
    lookup? "serde"
        (get_versions [("libc", ["0.2.0"])] (fun _ => Except.error ())
          ["serde", "libc"]).cache = none :=
  C4_fetch_failure_drops_name [("libc", ["0.2.0"])] (fun _ => Except.error ())
    ["serde", "libc"] "serde" rfl rfl

/-- C5 counterexample: a name repeated within a single call's name list, when it
is not cached, is fetched once per occurrence — two occurrences of `ab` cost two
network fetches, not at most one. -/
theorem C5_counterexample :
    (get_versions [] (fun _ => Except.ok ["1.0.0"]) ["ab", "ab"]).fetched =
      ["ab", "ab"] ∧
    (get_versions [] (fun _ => Except.ok ["1.0.0"]) ["ab", "ab"]).fetched.count
      "ab" = 2 :=
  ⟨rfl, rfl⟩

/-- C5 as amended: a name already present in the cache costs no network fetch;
and after a successful resolution of an uncached name, the name is cached with
the fetched list, that list is the result bound to the name, and any later
resolve call sharing the cache issues no new fetch for the name and returns the
identical list for it. (A name repeated within one call's list is, however,
fetched once per occurrence when uncached — see the counterexample.) -/
theorem C5_cache_idempotence (cache : List (String × List String))
    (fetch : String → Except Unit (List String)) (names : List String)
    (name : String) (vs : List String) :
    (lookup? name cache = some vs →
      name ∉ (get_versions cache fetch names).fetched) ∧
    (lookup? name cache = none → name ∈ names → fetch name = Except.ok vs →
      lookup? name (get_versions cache fetch names).cache = some vs ∧
      lookup? name (get_versions cache fetch names).results = some vs ∧
      ∀ names' : List String,
        name ∉ (get_versions (get_versions cache fetch names).cache fetch
          names').fetched ∧
        (name ∈ names' →
          lookup? name (get_versions (get_versions cache fetch names).cache fetch
            names').results = some vs)) := by
  constructor
  · intro hc hmem
    have := cacheSplit_misses_none names hmem
    rw [hc] at this
    exact Option.noConfusion this
  · intro hc hmem hf
    have hmiss : name ∈ (cacheSplit cache names).2 :=
      cacheSplit_misses_mem hc names hmem
    have hjoined : (name, Except.ok vs) ∈
        (cacheSplit cache names).2.map (fun n => (n, fetch n)) :=
      List.mem_map.mpr ⟨name, hmiss, by simp [hf]⟩
    have hall := joined_all_ok hf (cacheSplit cache names).2
    have hcache : lookup? name (get_versions cache fetch names).cache = some vs :=
      mergeFetched_cache_ok _ cache hall hjoined
    refine ⟨hcache, ?_, ?_⟩
    · show lookup? name ((cacheSplit cache names).1 ++ _) = some vs
      rw [lookup?_append_of_none (cacheSplit_hits_none hc names)]
      exact mergeFetched_results_ok _ cache hall hjoined
    · intro names'
      constructor
      · intro hmem'
        have := cacheSplit_misses_none names' hmem'
        rw [hcache] at this
        exact Option.noConfusion this
      · intro hmem'
        show lookup? name ((cacheSplit _ names').1 ++ _) = some vs
        exact lookup?_append_of_some (cacheSplit_hits_some hcache names' hmem')

/-- Witness for C5's amended theorem: resolving `tokio` once caches it; a second
resolve over the shared cache returns the identical list. -/
theorem C5_cache_idempotence_witness :
    lookup? "tokio"
        (get_versions
          (get_versions [] (fun _ => Except.ok ["1.0.0", "2.0.0"]) ["tokio"]).cache
          (fun _ => Except.ok ["1.0.0", "2.0.0"]) ["tokio"]).results =
      some ["1.0.0", "2.0.0"] :=
  (((C5_cache_idempotence [] (fun _ => Except.ok ["1.0.0", "2.0.0"]) ["tokio"]
      "tokio" ["1.0.0", "2.0.0"]).2 rfl (by decide) rfl).2.2 ["tokio"]).2
    (by decide)

/-- C3 counterexample: a full-text change on a tracked manifest updates the
stored text and version, but the handler's output contains no diagnostic pass at
all — the updated text is never handed to the diagnostic synthesizer and nothing
is published. -/
theorem C3_counterexample :
    did_change [("/p/Cargo.toml", ⟨"old".toList, 1⟩)]
        ⟨"/p/Cargo.toml", 2, [⟨none, "new".toList⟩]⟩ =
      some ([("/p/Cargo.toml", ⟨"new".toList, 2⟩)], []) := rfl

/-- C3 as amended: handling a change event on a tracked manifest updates the
stored document text (applying the changes in order) and the stored version, but
computes and publishes no diagnostics — the change handler's output list is
empty; diagnostics are only produced by the open and save handlers. -/
theorem C3_change_gives_no_diagnostics (docs : List (String × FileInfo))
    (p : DidChangeParams) (doc : FileInfo) (t' : List Char)
    (huri : is_cargo_toml p.uri = true)
    (hdoc : lookup? p.uri docs = some doc)
    (happ : p.contentChanges.foldlM applyChange doc.text = some t') :
    did_change docs p = some (upsert p.uri ⟨t', p.version⟩ docs, []) := by
  rw [did_change, huri]
  simp [hdoc, happ]

/-- Witness for C3's amended theorem at a concrete ranged edit. -/
theorem C3_change_gives_no_diagnostics_witness :
    did_change [("/w/Cargo.toml", ⟨"ab\ncd".toList, 4⟩)]
        ⟨"/w/Cargo.toml", 5, [⟨some (⟨1, 0⟩, ⟨1, 1⟩), "x".toList⟩]⟩ =
      some
        (upsert "/w/Cargo.toml" ⟨"ab\nxd".toList, 5⟩
          [("/w/Cargo.toml", ⟨"ab\ncd".toList, 4⟩)], []) :=
  C3_change_gives_no_diagnostics [("/w/Cargo.toml", ⟨"ab\ncd".toList, 4⟩)]
    ⟨"/w/Cargo.toml", 5, [⟨some (⟨1, 0⟩, ⟨1, 1⟩), "x".toList⟩]⟩
    ⟨"ab\ncd".toList, 4⟩ "ab\nxd".toList (by decide) rfl (by decide)

/-- C6 counterexample: a save event carrying no synchronized text on a tracked
manifest triggers no diagnostic pass at all — the currently tracked text is not
used for a pass, contrary to the claim. -/
theorem C6_counterexample :
    lookup? "/w/Cargo.toml" [("/w/Cargo.toml", (⟨"x".toList, 3⟩ : FileInfo))] =
      some ⟨"x".toList, 3⟩ ∧
    did_save [("/w/Cargo.toml", ⟨"x".toList, 3⟩)] ⟨"/w/Cargo.toml", none⟩ =
      ([("/w/Cargo.toml", ⟨"x".toList, 3⟩)], []) :=
  ⟨rfl, rfl⟩

/-- C6 as amended: on a save event for a manifest, when the server supplies
synchronized full text it replaces the stored text (if the document is tracked)
and the diagnostic pass runs on the supplied text (with the tracked version, or
with no version when untracked); when no text is supplied the handler returns
without running any diagnostic pass, leaving the stored text unchanged. -/
theorem C6_save_text_selection (docs : List (String × FileInfo)) (uri : String)
    (t : List Char) (doc : FileInfo) (huri : is_cargo_toml uri = true) :
    (lookup? uri docs = some doc →
      did_save docs ⟨uri, some t⟩ =
        (upsert uri ⟨t, doc.version⟩ docs,
          [Output.diagPass uri (some doc.version) t])) ∧
    (lookup? uri docs = none →
      did_save docs ⟨uri, some t⟩ = (docs, [Output.diagPass uri none t])) ∧
    did_save docs ⟨uri, none⟩ = (docs, []) := by
  refine ⟨fun hdoc => ?_, fun hdoc => ?_, ?_⟩
  · rw [did_save]
    simp [huri, hdoc]
  · rw [did_save]
    simp [huri, hdoc]
  · rw [did_save]
    simp only [huri, Bool.not_true, Bool.false_eq_true, if_false]

/-- Witness for C6's amended theorem: a save with supplied text on a tracked
manifest replaces the text and passes the supplied text to the synthesizer. -/
theorem C6_save_text_selection_witness :
    did_save [("/q/Cargo.toml", (⟨"a".toList, 7⟩ : FileInfo))]
        ⟨"/q/Cargo.toml", some "b".toList⟩ =
      (upsert "/q/Cargo.toml" ⟨"b".toList, 7⟩
          [("/q/Cargo.toml", ⟨"a".toList, 7⟩)],
        [Output.diagPass "/q/Cargo.toml" (some 7) "b".toList]) :=
  (C6_save_text_selection [("/q/Cargo.toml", ⟨"a".toList, 7⟩)] "/q/Cargo.toml"
    "b".toList ⟨"a".toList, 7⟩ (by decide)).1 rfl

/-- C10: a change notification whose URI passes the manifest filename filter but
for which no document is tracked makes the handler panic on the missing map
entry (modelled as `none`) rather than ignore the notification; likewise the
handler panics when a change range's position cannot be converted to an offset. -/
theorem C10_did_change_panics (docs : List (String × FileInfo))
    (p : DidChangeParams) :
    (is_cargo_toml p.uri = true → lookup? p.uri docs = none →
      did_change docs p = none) ∧
    (∀ doc c rest s e,
      is_cargo_toml p.uri = true → lookup? p.uri docs = some doc →
      p.contentChanges = c :: rest → c.range = some (s, e) →
      pos_to_offset doc.text s = none →
      did_change docs p = none) := by
  constructor
  · intro huri hdoc
    rw [did_change, huri]
    simp [hdoc]
  · intro doc c rest s e huri hdoc hchanges hrange hpos
    rw [did_change, huri]
    simp only [Bool.not_true, Bool.false_eq_true, if_false, hdoc, Option.bind_eq_bind,
      Option.some_bind, hchanges]
    have happ : applyChange doc.text c = none := by
      rw [applyChange, hrange]
      simp [hpos]
    rw [List.foldlM_cons, happ]
    rfl

/-- Witness for C10: a change for an untracked `Cargo.toml` URI panics. -/
theorem C10_did_change_panics_witness :
    did_change [] ⟨"/p/Cargo.toml", 2, [⟨none, "new".toList⟩]⟩ = none :=
  (C10_did_change_panics [] ⟨"/p/Cargo.toml", 2, [⟨none, "new".toList⟩]⟩).1
    (by decide) rfl

/-! Helper lemmas about diagnostic synthesis. -/

lemma mkDiag_some_range {text : List Char} {d : DepEntry} {fetched : List String}
    {diag : Diagnostic} (h : mkDiag text d fetched = some (some diag)) :
    ∃ sp ep, offset_to_pos text d.spanStart = some (some sp) ∧
      offset_to_pos text d.spanEnd = some (some ep) ∧ diag.range = (sp, ep) := by
  rw [mkDiag] at h
  cases hs : offset_to_pos text d.spanStart with
  | none => rw [hs] at h; exact Option.noConfusion h
  | some s =>
    cases he : offset_to_pos text d.spanEnd with
    | none => rw [hs, he] at h; exact Option.noConfusion h
    | some e =>
      rw [hs, he] at h
      cases s with
      | none =>
        cases e <;> simp only [Option.bind_eq_bind, Option.some_bind] at h <;>
          exact Option.noConfusion (Option.some.inj h)
      | some sp =>
        cases e with
        | none =>
          simp only [Option.bind_eq_bind, Option.some_bind] at h
          exact Option.noConfusion (Option.some.inj h)
        | some ep =>
          simp only [Option.bind_eq_bind, Option.some_bind] at h
          refine ⟨sp, ep, rfl, rfl, ?_⟩
          have := Option.some.inj (Option.some.inj h)
          rw [← this]

lemma collectLoop_mem {text : List Char} {deps : List DepEntry} :
    ∀ (pairs : List (String × List String)) (diags : List Diagnostic)
      (diag : Diagnostic),
      collectLoop text deps pairs = some diags → diag ∈ diags →
      ∃ d vs, d ∈ deps ∧ mkDiag text d vs = some (some diag)
  | [], diags, diag, h, hmem => by
    rw [collectLoop] at h
    rw [← Option.some.inj h] at hmem
    simp at hmem
  | (name, versions) :: rest, diags, diag, h, hmem => by
    rw [collectLoop] at h
    cases hfind : deps.find? (fun e => e.name = name) with
    | none => rw [hfind] at h; exact Option.noConfusion h
    | some d =>
      rw [hfind] at h
      dsimp only at h
      have hd : d ∈ deps := List.mem_of_find?_eq_some hfind
      cases hmk : mkDiag text d versions with
      | none => rw [hmk] at h; exact Option.noConfusion h
      | some o =>
        rw [hmk] at h
        cases o with
        | none => exact collectLoop_mem rest diags diag h hmem
        | some dg =>
          rcases Option.map_eq_some'.mp h with ⟨rest', hrest, hcons⟩
          rw [← hcons] at hmem
          rcases List.mem_cons.mp hmem with heq | hmem'
          · exact ⟨d, versions, hd, heq ▸ hmk⟩
          · exact collectLoop_mem rest rest' diag hrest hmem'

/-- C9 counterexample: in a manifest declaring `foo` both as a path dependency
and as a registry dependency (for example in another dependency table), the path
dependency's name does appear in the name set sent to the version dispatcher. -/
theorem C9_counterexample :
    (⟨"foo", 10, 13, "", true⟩ : DepEntry) ∈
      [(⟨"foo", 10, 13, "", true⟩ : DepEntry), ⟨"foo", 30, 33, "1", false⟩] ∧
    (⟨"foo", 10, 13, "", true⟩ : DepEntry).hasPath = true ∧
    (⟨"foo", 10, 13, "", true⟩ : DepEntry).name ∈
      dep_names [⟨"foo", 10, 13, "", true⟩, ⟨"foo", 30, 33, "1", false⟩] := by
  refine ⟨List.mem_cons_self _ _, rfl, ?_⟩
  decide

/-- C9 as amended: the name set sent to the version dispatcher consists exactly
of the names of the entries that are not path dependencies — every non-path
entry's name is sent, and the name of a path dependency is absent unless some
non-path entry shares that name (so a name declared only by path dependencies
never appears); and every emitted diagnostic is positioned at the span of a
non-path entry. -/
theorem C9_path_deps_excluded (allDeps : List DepEntry) :
    (∀ name, name ∈ dep_names allDeps ↔
      ∃ d, d ∈ allDeps ∧ d.hasPath = false ∧ d.name = name) ∧
    (∀ d, d ∈ allDeps → d.hasPath = true →
      (∀ d', d' ∈ allDeps → d'.name = d.name → d'.hasPath = true) →
      d.name ∉ dep_names allDeps) ∧
    (∀ d, d ∈ allDeps → d.hasPath = false → d.name ∈ dep_names allDeps) ∧
    (∀ (text : List Char) (cache : List (String × List String))
      (fetch : String → Except Unit (List String)) (diags : List Diagnostic)
      (diag : Diagnostic),
      collect_diagnostics text allDeps cache fetch = some diags → diag ∈ diags →
      ∃ d, d ∈ allDeps ∧ d.hasPath = false ∧
        ∃ sp ep, offset_to_pos text d.spanStart = some (some sp) ∧
          offset_to_pos text d.spanEnd = some (some ep) ∧
          diag.range = (sp, ep)) := by
  have hmem : ∀ name, name ∈ dep_names allDeps ↔
      ∃ d, d ∈ allDeps ∧ d.hasPath = false ∧ d.name = name := by
    intro name
    simp [dep_names, List.mem_map, List.mem_filter, Bool.not_eq_true', and_assoc]
  refine ⟨hmem, ?_, ?_, ?_⟩
  · intro d hd hpath honly hin
    rcases (hmem d.name).mp hin with ⟨d', hd', hnp, hname⟩
    rw [honly d' hd' hname] at hnp
    exact Bool.noConfusion hnp
  · intro d hd hnp
    exact (hmem d.name).mpr ⟨d, hd, hnp, rfl⟩
  · intro text cache fetch diags diag hcoll hdiag
    rw [collect_diagnostics] at hcoll
    rcases collectLoop_mem _ diags diag hcoll hdiag with ⟨d, vs, hd, hmk⟩
    rcases List.mem_filter.mp hd with ⟨hd', hnp⟩
    have hnp' : d.hasPath = false := by simpa using hnp
    exact ⟨d, hd', hnp', mkDiag_some_range hmk⟩

/-- Witness for C9's amended theorem: a non-path entry's name is sent to the
dispatcher. -/
theorem C9_path_deps_excluded_witness :
    (⟨"serde", 1, 6, "1", false⟩ : DepEntry).name ∈
      dep_names [⟨"serde", 1, 6, "1", false⟩] :=
  (C9_path_deps_excluded [⟨"serde", 1, 6, "1", false⟩]).2.2.1
    ⟨"serde", 1, 6, "1", false⟩ (List.mem_cons_self _ _) rfl

/-- C7 counterexample: `pos_to_offset` does not validate the character offset —
on the text `a\nbc` the position line 0, character 3 (line 0 is just `a`) yields
offset 3, which lies on line 1 (as `offset_to_pos` itself confirms); and on the
one-character text `a` the position line 0, character 5 yields offset 5, past
the text length 1. No error is signalled in either case. -/
theorem C7_counterexample :
    pos_to_offset "a\nbc".toList ⟨0, 3⟩ = some 3 ∧
    offset_to_pos "a\nbc".toList 3 = some (some ⟨1, 1⟩) ∧
    pos_to_offset "a".toList ⟨0, 5⟩ = some 5 ∧
    ("a".toList).length = 1 := by
  refine ⟨by decide, by decide, by decide, by decide⟩

/-- C7 as amended: a position whose line index is past the last line makes
`pos_to_offset` return an error (`none`) rather than clamp; but the character
offset is not validated at all — whenever the line exists, the function returns
the line's start offset plus the character count, even when that lands on a
different line or past the end of the text. -/
theorem C7_pos_to_offset_bounds (text : List Char) (pos : Position) :
    ((lines text).length ≤ pos.line → pos_to_offset text pos = none) ∧
    (∀ l, (lines text).get? pos.line = some l →
      pos_to_offset text pos = some (lineStart text pos.line + pos.character)) := by
  constructor
  · intro h
    rw [pos_to_offset]
    rw [List.get?_eq_none.mpr h]
  · intro l h
    rw [pos_to_offset, h]

/-- Witness for C7's amended theorem: a position seven lines past the end of a
one-line text is an error. -/
theorem C7_pos_to_offset_bounds_witness :
    pos_to_offset "a".toList ⟨7, 0⟩ = none :=
  (C7_pos_to_offset_bounds "a".toList ⟨7, 0⟩).1 (by decide)

/-! Helper lemmas about `splitInclusive` and `lines`, leading to the
position-mapping round trip. -/

lemma mem_of_getLast?_eq {l : List Char} {a : Char} (h : l.getLast? = some a) :
    a ∈ l := by
  rcases List.mem_getLast?_eq_getLast (Option.mem_def.mpr h) with ⟨hne, heq⟩
  rw [heq]
  exact List.getLast_mem hne

lemma splitInclusive_eq_nil_iff : ∀ s : List Char, splitInclusive s = [] ↔ s = []
  | [] => by simp [splitInclusive]
  | c :: rest => by
    constructor
    · intro h
      rw [splitInclusive] at h
      cases hsi : splitInclusive rest with
      | nil => rw [hsi] at h; exact absurd h (by simp)
      | cons s ss =>
        rw [hsi] at h
        by_cases hc : c = '\n' <;> simp [hc] at h
    · intro h; exact absurd h (by simp)

lemma join_splitInclusive : ∀ s : List Char, (splitInclusive s).flatten = s
  | [] => rfl
  | c :: rest => by
    rw [splitInclusive]
    cases hsi : splitInclusive rest with
    | nil =>
      have hr : rest = [] := (splitInclusive_eq_nil_iff rest).mp hsi
      subst hr
      simp
    | cons s ss =>
      have ih := join_splitInclusive rest
      rw [hsi] at ih
      have ih' : s ++ ss.flatten = rest := by simpa using ih
      by_cases hc : c = '\n' <;> simp [hc, ih']

lemma splitInclusive_append :
    ∀ (a b : List Char), a.getLast? = some '\n' →
      splitInclusive (a ++ b) = splitInclusive a ++ splitInclusive b
  | [], _, h => by simp at h
  | [c], b, h => by
    have hc : c = '\n' := by simpa using h
    subst hc
    rw [List.singleton_append, splitInclusive]
    cases hb : splitInclusive b with
    | nil =>
      have : b = [] := (splitInclusive_eq_nil_iff b).mp hb
      subst this
      rfl
    | cons s ss => simp [splitInclusive]
  | c :: c' :: a', b, h => by
    have h' : (c' :: a').getLast? = some '\n' := by
      rwa [List.getLast?_cons_cons] at h
    have ih := splitInclusive_append (c' :: a') b h'
    cases hsi : splitInclusive (c' :: a') with
    | nil => exact absurd ((splitInclusive_eq_nil_iff _).mp hsi) (by simp)
    | cons s ss =>
      have hX : splitInclusive ((c' :: a') ++ b) = s :: (ss ++ splitInclusive b) := by
        rw [ih, hsi, List.cons_append]
      rw [List.cons_append, splitInclusive, hX, splitInclusive, hsi]
      by_cases hc : c = '\n' <;> simp [hc]

lemma splitInclusive_no_nl :
    ∀ t : List Char, '\n' ∉ t → t ≠ [] → splitInclusive t = [t]
  | [c], _, _ => rfl
  | c :: c' :: t', h, _ => by
    have h' : '\n' ∉ (c' :: t') := fun hm => h (List.mem_cons_of_mem _ hm)
    have hc : ¬ c = '\n' := fun he => h (by rw [he]; exact List.mem_cons_self _ _)
    have ih := splitInclusive_no_nl (c' :: t') h' (by simp)
    rw [splitInclusive, ih]
    simp [hc]

lemma splitInclusive_append_no_nl :
    ∀ (t b s₀ : List Char) (ss : List (List Char)), '\n' ∉ t →
      splitInclusive b = s₀ :: ss →
      splitInclusive (t ++ b) = (t ++ s₀) :: ss
  | [], b, s₀, ss, _, hb => by simpa using hb
  | c :: t', b, s₀, ss, h, hb => by
    have h' : '\n' ∉ t' := fun hm => h (List.mem_cons_of_mem _ hm)
    have hc : ¬ c = '\n' := fun he => h (by rw [he]; exact List.mem_cons_self _ _)
    have ih := splitInclusive_append_no_nl t' b s₀ ss h' hb
    rw [List.cons_append, splitInclusive, ih]
    simp [hc]

lemma exists_decomp_of_not_nl :
    ∀ s : List Char, s ≠ [] → s.getLast? ≠ some '\n' →
      ∃ a t, s = a ++ t ∧ t ≠ [] ∧ '\n' ∉ t ∧ (a = [] ∨ a.getLast? = some '\n')
  | [c], _, h => by
    have hc : c ≠ '\n' := by
      intro he
      exact h (by simp [he])
    refine ⟨[], [c], rfl, by simp, ?_, Or.inl rfl⟩
    simp only [List.mem_singleton]
    exact fun he => hc he.symm
  | c :: c' :: s', _, h => by
    have h' : (c' :: s').getLast? ≠ some '\n' := by
      rwa [List.getLast?_cons_cons] at h
    obtain ⟨a, t, hs, htne, htnl, ha⟩ :=
      exists_decomp_of_not_nl (c' :: s') (by simp) h'
    rcases ha with ha | ha
    · subst ha
      rw [List.nil_append] at hs
      by_cases hc : c = '\n'
      · exact ⟨[c], t, by rw [hs, List.singleton_append], htne, htnl,
          Or.inr (by simp [hc])⟩
      · refine ⟨[], c :: t, by rw [hs, List.nil_append], by simp, ?_, Or.inl rfl⟩
        intro hm
        rcases List.mem_cons.mp hm with he | hm'
        · exact hc he.symm
        · exact htnl hm'
    · have hane : a ≠ [] := by
        intro he
        rw [he] at ha
        exact Option.noConfusion ha
      refine ⟨c :: a, t, by rw [List.cons_append, ← hs], htne, htnl, Or.inr ?_⟩
      cases a with
      | nil => exact absurd rfl hane
      | cons x xs => rwa [List.getLast?_cons_cons]

lemma lineStrip_of_no_nl {t : List Char} (h : t.getLast? ≠ some '\n') :
    lineStrip t = t := by
  rw [lineStrip, if_neg h]

lemma lineStart_of_split {text : List Char} {A B : List (List Char)}
    (h : splitInclusive text = A ++ B) :
    lineStart text A.length = A.flatten.length := by
  rw [lineStart, h, List.take_left, List.length_flatten]

/-- C2: at offset 0 of any non-empty text, `offset_to_pos` panics (the prefix
before the offset is empty, so `lines().count() - 1` underflows and
`lines().last().unwrap()` unwraps `None`) — shown here on the concrete text
`[dependencies]` — contradicting the claim that it is defined on every in-bounds
offset; for every other in-bounds byte offset (`1 ≤ o < length`) the conversion
succeeds and `pos_to_offset` maps the resulting position back to exactly `o`. -/
theorem C2_roundtrip_and_offset_zero_panic :
    offset_to_pos "[dependencies]".toList 0 = none ∧
    ∀ (text : List Char) (o : Nat), 1 ≤ o → o < text.length →
      ∃ p : Position, offset_to_pos text o = some (some p) ∧
        pos_to_offset text p = some o := by
  refine ⟨by decide, ?_⟩
  intro text o h1 hlt
  have hle : o ≤ text.length := Nat.le_of_lt hlt
  have hprelen : (text.take o).length = o := by
    rw [List.length_take]
    exact Nat.min_eq_left hle
  have hpre_ne : text.take o ≠ [] := by
    intro h
    rw [h] at hprelen
    simp at hprelen
    omega
  have hsuf_ne : text.drop o ≠ [] := by
    intro h
    have hl := congrArg List.length h
    rw [List.length_drop] at hl
    simp at hl
    omega
  have htext : (text.take o) ++ (text.drop o) = text := List.take_append_drop o text
  have hguard : ¬ (o + 1 > text.length) := by omega
  obtain ⟨s₀, ss, hsufsplit⟩ :
      ∃ s₀ ss, splitInclusive (text.drop o) = s₀ :: ss := by
    cases h : splitInclusive (text.drop o) with
    | nil => exact absurd ((splitInclusive_eq_nil_iff _).mp h) hsuf_ne
    | cons s ss => exact ⟨s, ss, rfl⟩
  by_cases hnl : (text.take o).getLast? = some '\n'
  · -- the prefix ends in a newline: position is (line count of prefix, 0)
    have hsplit : splitInclusive text =
        splitInclusive (text.take o) ++ splitInclusive (text.drop o) := by
      have h := splitInclusive_append (text.take o) (text.drop o) hnl
      rwa [htext] at h
    refine ⟨⟨(lines (text.take o)).length, 0⟩, ?_, ?_⟩
    · rw [offset_to_pos, if_neg hguard]
      simp only [if_pos hnl]
    · have hLlen : (lines (text.take o)).length =
          (splitInclusive (text.take o)).length := by
        rw [lines, List.length_map]
      have hget : (lines text).get? (lines (text.take o)).length =
          some (lineStrip s₀) := by
        rw [lines, hsplit, List.map_append, hLlen,
          List.get?_append_right (by rw [List.length_map])]
        simp [hsufsplit]
      rw [pos_to_offset, hget]
      have hstart : lineStart text (lines (text.take o)).length = o := by
        rw [hLlen, lineStart_of_split hsplit, join_splitInclusive, hprelen]
      rw [hstart]
      rfl
  · -- the prefix does not end in a newline: split it at its last line break
    obtain ⟨a, t, hs, htne, htnl, ha⟩ :=
      exists_decomp_of_not_nl (text.take o) hpre_ne hnl
    have hsit : splitInclusive t = [t] := splitInclusive_no_nl t htnl htne
    have hsipre : splitInclusive (text.take o) = splitInclusive a ++ [t] := by
      rcases ha with ha | ha
      · subst ha
        rw [List.nil_append] at hs
        rw [hs, hsit]
        rfl
      · rw [hs, splitInclusive_append a t ha, hsit]
    have htglast : t.getLast? ≠ some '\n' := fun hl => htnl (mem_of_getLast?_eq hl)
    have hlinespre : lines (text.take o) =
        (splitInclusive a).map lineStrip ++ [t] := by
      rw [lines, hsipre, List.map_append]
      simp [lineStrip_of_no_nl htglast]
    have hL : (lines (text.take o)).length = (splitInclusive a).length + 1 := by
      rw [hlinespre]
      simp
    have hlast : (lines (text.take o)).getLast? = some t := by
      rw [hlinespre]
      exact List.getLast?_concat _
    have htb := splitInclusive_append_no_nl t (text.drop o) s₀ ss htnl hsufsplit
    have htext2 : a ++ (t ++ text.drop o) = text := by
      rw [← List.append_assoc, ← hs, htext]
    have hsitext : splitInclusive text =
        splitInclusive a ++ ((t ++ s₀) :: ss) := by
      rcases ha with ha | ha
      · subst ha
        rw [List.nil_append] at htext2
        rw [← htext2, htb]
        rfl
      · have h := splitInclusive_append a (t ++ text.drop o) ha
        rw [htext2] at h
        rw [h, htb]
    refine ⟨⟨(splitInclusive a).length, t.length⟩, ?_, ?_⟩
    · rw [offset_to_pos, if_neg hguard]
      simp only [if_neg hnl, hL, hlast, checkedSub, Nat.le_add_left,
        Nat.add_sub_cancel, if_pos, Option.bind_eq_bind, Option.some_bind]
      rfl
    · have hget : (lines text).get? (splitInclusive a).length =
          some (lineStrip (t ++ s₀)) := by
        rw [lines, hsitext, List.map_append,
          List.get?_append_right (by rw [List.length_map])]
        simp
      rw [pos_to_offset, hget]
      have hstart : lineStart text (splitInclusive a).length = a.length := by
        have h := lineStart_of_split hsitext
        rwa [join_splitInclusive] at h
      have hlen : a.length + t.length = o := by
        have h := congrArg List.length hs
        rw [hprelen, List.length_append] at h
        omega
      rw [hstart, hlen]

/-- Witness for C2's round-trip clause at the concrete text `a\nbc`, offset 2
(the start of the second line). -/
theorem C2_roundtrip_witness :
    ∃ p : Position, offset_to_pos "a\nbc".toList 2 = some (some p) ∧
      pos_to_offset "a\nbc".toList p = some 2 :=
  C2_roundtrip_and_offset_zero_panic.2 "a\nbc".toList 2 (by decide) (by decide)

end CratesIoLsp
